import Mathlib

/-!
Verification of the `TabularMSA` alignment-matrix container
(`skbio/alignment/_tabular_msa.py`).

The Python class is shallowly embedded: sequences (rows) become a plain
structure carrying a concrete type tag, a character list and per-row
metadata; the MSA state is the pair of the private fields `_seqs` and
`_keys`; every mutating method becomes a function returning an `OpResult`
that carries the resulting state both on success and at the point an
exception propagates, so that atomicity (state at raise time) is captured
faithfully.  Python's `sorted` (a stable sort whose `reverse=True` form is
a stable *descending* sort) is modelled by `List.insertionSort` with the
appropriate reflexive total relation.  Keys are taken from an arbitrary
linearly ordered type `K`; instantiating `K := Nat` makes everything
computable for concrete checks.
-/

set_option maxHeartbeats 1000000
set_option linter.unusedVariables false

deriving instance DecidableEq for Except

namespace Skbio

/-- Concrete scikit-bio sequence classes.  `DNA`, `RNA` and `Protein` are
the `IUPACSequence` subclasses (alphabet-aware); `Generic` stands for the
plain `Sequence` class, which has no alphabet. -/
inductive SeqType where
  | DNA
  | RNA
  | Protein
  | Generic
  deriving DecidableEq

/-- Whether a sequence class is a subclass of `IUPACSequence`
(`issubclass(dtype, IUPACSequence)` in `_add_sequence`). -/
def isIUPAC : SeqType → Bool
  | SeqType.Generic => false
  | _ => true

/-- Gap characters of a sequence class.  For the IUPAC classes these are
`-` and `.` (the source's `gap_frequencies` docstring counts both as
gaps); the generic class never reaches a gap query in the embedded code. -/
def gap_chars : SeqType → List Char
  | SeqType.Generic => []
  | _ => ['-', '.']

/-- A scikit-bio sequence object (one row of the MSA): its concrete
class, its characters, and its `metadata` mapping (values restricted to
the key type `K`, which is all the embedded code ever reads from it). -/
structure Seq (K : Type) where
  dtype : SeqType
  chars : List Char
  metadata : List (String × K)
  deriving DecidableEq

/-- Discriminates the raise sites of the embedded methods. -/
inductive ErrKind where
  | typeMismatch
  | notAlphabetSequence
  | lengthMismatch
  | conflictingKeyArguments
  | keyCountMismatch
  | noKeysSet
  | keyRequired
  | keyWithoutKeys
  | minterWithoutKeys
  | invalidAxis
  deriving DecidableEq

/-- The Python exception classes raised by the embedded code.
`uniqueError` carries the duplicate values named in the message of
`UniqueError`; `keyError` is the `KeyError` escaping a metadata lookup. -/
inductive Err (K : Type) where
  | typeError (kind : ErrKind)
  | valueError (kind : ErrKind)
  | uniqueError (dups : List K)
  | operationError (kind : ErrKind)
  | keyError
  deriving DecidableEq

/-- A key-derivation rule (minter): a one-argument callable, or a key
into each sequence's `metadata`. -/
inductive Minter (K : Type) where
  | callable (f : Seq K → K)
  | metadataKey (name : String)

/-- Modelled from the spec: `resolve_key` (from `skbio.util._misc`, not
under `src/`) resolves a key-derivation rule against one row: a callable
rule is applied to the row, otherwise the rule names an entry of the
row's `metadata` (a missing entry propagates, as Python's `KeyError`). -/
def resolve_key {K : Type} (seq : Seq K) (m : Minter K) : Except (Err K) K :=
  match m with
  | Minter.callable f => Except.ok (f seq)
  | Minter.metadataKey n =>
    match seq.metadata.lookup n with
    | some k => Except.ok k
    | none => Except.error Err.keyError

/-- Helper for `find_duplicates`: walks the list keeping the set of
values already seen and the repeated values found so far. -/
def findDupsAux {K : Type} [DecidableEq K] :
    List K → List K → List K → List K
  | [], _, repeated => repeated.reverse
  | x :: xs, seen, repeated =>
    if x ∈ seen then
      if x ∈ repeated then findDupsAux xs seen repeated
      else findDupsAux xs seen (x :: repeated)
    else findDupsAux xs (x :: seen) repeated

/-- Modelled from the spec: `find_duplicates` (from `skbio.util`, not
under `src/`) returns the values that occur more than once in the input
(the spec: duplicate candidates are detected by hash + equality and the
failure names the offending values). -/
def find_duplicates {K : Type} [DecidableEq K] (l : List K) : List K :=
  findDupsAux l [] []

/-- The state of a `TabularMSA` object: the private fields `_seqs` and
`_keys` (`_keys is None` when the MSA is unkeyed). -/
structure TabularMSA (K : Type) where
  _seqs : List (Seq K)
  _keys : Option (List K)
  deriving DecidableEq

/-- Result of a mutating method: `ok` with the new state, or `err` with
the exception and the state at the moment the exception propagates (the
embedding performs the state writes in the source's order, so `err`
carrying the pre-call state is a theorem about the code, not a modelling
artifact). -/
inductive OpResult (K : Type) where
  | ok (m : TabularMSA K)
  | err (e : Err K) (m : TabularMSA K)
  deriving DecidableEq

namespace TabularMSA

variable {K : Type}

/-- `len(msa)`: number of sequences. -/
def len (m : TabularMSA K) : Nat := m._seqs.length

/-- `msa.dtype`: type of the stored sequences (`None` when empty). -/
def dtype (m : TabularMSA K) : Option SeqType :=
  m._seqs.head?.map Seq.dtype

/-- `msa.shape`: `(sequence_count, position_count)`; the position count
is the length of the first sequence, `0` when there are no sequences. -/
def shape (m : TabularMSA K) : Nat × Nat :=
  (m._seqs.length,
   match m._seqs.head? with
   | some s => s.chars.length
   | none => 0)

/-- `msa.has_keys()`. -/
def has_keys (m : TabularMSA K) : Bool := m._keys.isSome

/-- The `keys` property: raises `OperationError` when keys are absent. -/
def keys (m : TabularMSA K) : Except (Err K) (List K) :=
  match m._keys with
  | none => Except.error (Err.operationError ErrKind.noKeysSet)
  | some ks => Except.ok ks

/-- `key in msa` (`__contains__`): membership in the key index; reading
`self.keys` raises `OperationError` when keys are absent. -/
def contains [DecidableEq K] (m : TabularMSA K) (key : K) :
    Except (Err K) Bool :=
  match m.keys with
  | Except.error e => Except.error e
  | Except.ok ks => Except.ok (decide (key ∈ ks))

/-- `_munge_keys`: checks candidate keys for duplicates, raising
`UniqueError` naming them; on success the keys are stored as an
immutable array (a Lean list is already immutable). -/
def _munge_keys [DecidableEq K] (keys : Option (List K)) :
    Except (Err K) (Option (List K)) :=
  match keys with
  | none => Except.ok none
  | some ks =>
    let duplicates := find_duplicates ks
    if duplicates = [] then Except.ok (some ks)
    else Except.error (Err.uniqueError duplicates)

/-- The list comprehension `[resolve_key(seq, minter) for seq in seqs]`:
rows are resolved left to right and the first failure propagates. -/
def resolveAll [DecidableEq K] (mt : Minter K) :
    List (Seq K) → Except (Err K) (List K)
  | [] => Except.ok []
  | s :: rest =>
    match resolve_key s mt with
    | Except.error e => Except.error e
    | Except.ok k =>
      match resolveAll mt rest with
      | Except.error e => Except.error e
      | Except.ok ks => Except.ok (k :: ks)

/-- `reindex(minter=..., keys=...)`: recompute the key index.  Both
arguments given is a `ValueError`; a minter is resolved per row; an
explicit list must match the sequence count; the candidates then pass
through `_munge_keys`, and only on success is `_keys` assigned. -/
def reindex [DecidableEq K] (m : TabularMSA K) (minter : Option (Minter K))
    (keys : Option (List K)) : OpResult K :=
  if minter.isSome && keys.isSome then
    OpResult.err (Err.valueError ErrKind.conflictingKeyArguments) m
  else
    let keysE : Except (Err K) (Option (List K)) :=
      match minter, keys with
      | some mt, _ =>
        match resolveAll mt m._seqs with
        | Except.error e => Except.error e
        | Except.ok ks => Except.ok (some ks)
      | none, some ks =>
        if ks.length ≠ m._seqs.length then
          Except.error (Err.valueError ErrKind.keyCountMismatch)
        else Except.ok (some ks)
      | none, none => Except.ok none
    match keysE with
    | Except.error e => OpResult.err e m
    | Except.ok keys_ =>
      match _munge_keys keys_ with
      | Except.error e => OpResult.err e m
      | Except.ok munged => OpResult.ok ⟨m._seqs, munged⟩

/-- `_add_sequence(sequence, key=None)`: the single row-adding path.  An
empty MSA bootstraps its dtype and position count from the new sequence
(after the alphabet check); otherwise the sequence must match the MSA's
dtype and position count; a supplied key is appended to the existing
keys and the result passes through `_munge_keys` *before* either field
is written, mirroring the source's statement order. -/
def _add_sequence [DecidableEq K] (m : TabularMSA K) (sequence : Seq K)
    (key : Option K) : OpResult K :=
  if m._seqs.length = 0 then
    if isIUPAC sequence.dtype = false then
      OpResult.err (Err.typeError ErrKind.notAlphabetSequence) m
    else
      match key with
      | some k =>
        match _munge_keys (some [k]) with
        | Except.error e => OpResult.err e m
        | Except.ok munged => OpResult.ok ⟨[sequence], munged⟩
      | none => OpResult.ok ⟨[sequence], m._keys⟩
  else if some sequence.dtype ≠ m.dtype then
    OpResult.err (Err.typeError ErrKind.typeMismatch) m
  else if sequence.chars.length ≠ m.shape.2 then
    OpResult.err (Err.valueError ErrKind.lengthMismatch) m
  else
    match key with
    | some k =>
      match m.keys with
      | Except.error e => OpResult.err e m
      | Except.ok ks =>
        match _munge_keys (some (ks ++ [k])) with
        | Except.error e => OpResult.err e m
        | Except.ok munged =>
          OpResult.ok ⟨m._seqs ++ [sequence], munged⟩
    | none => OpResult.ok ⟨m._seqs ++ [sequence], m._keys⟩

/-- `append(sequence, minter=..., key=...)`: key/minter bookkeeping, then
`_add_sequence`.  On a keyed MSA exactly one of key or minter must be
supplied (there is no remembered minter from construction or reindex);
on an unkeyed MSA neither may be supplied. -/
def append [DecidableEq K] (m : TabularMSA K) (sequence : Seq K)
    (minter : Option (Minter K)) (key : Option K) : OpResult K :=
  if key.isSome && minter.isSome then
    OpResult.err (Err.valueError ErrKind.conflictingKeyArguments) m
  else
    let newKeyE : Except (Err K) (Option K) :=
      if m.has_keys then
        match key, minter with
        | none, none => Except.error (Err.operationError ErrKind.keyRequired)
        | some k, _ => Except.ok (some k)
        | none, some mt =>
          match resolve_key sequence mt with
          | Except.error e => Except.error e
          | Except.ok k => Except.ok (some k)
      else
        match key, minter with
        | some _, _ => Except.error (Err.operationError ErrKind.keyWithoutKeys)
        | none, some _ =>
          Except.error (Err.operationError ErrKind.minterWithoutKeys)
        | none, none => Except.ok none
    match newKeyE with
    | Except.error e => OpResult.err e m
    | Except.ok nk => _add_sequence m sequence nk

/-- The sequence-consuming loop of `__init__`: each incoming row goes
through `_add_sequence` with no key. -/
def initLoop [DecidableEq K] (m : TabularMSA K) :
    List (Seq K) → OpResult K
  | [] => OpResult.ok m
  | s :: rest =>
    match _add_sequence m s none with
    | OpResult.ok m' => initLoop m' rest
    | OpResult.err e m' => OpResult.err e m'

/-- `TabularMSA(sequences, minter=..., keys=...)`: consume the rows, then
`reindex(minter=minter, keys=keys)`. -/
def init [DecidableEq K] (sequences : List (Seq K))
    (minter : Option (Minter K)) (keys : Option (List K)) : OpResult K :=
  match initLoop ⟨[], none⟩ sequences with
  | OpResult.err e m' => OpResult.err e m'
  | OpResult.ok m' => reindex m' minter keys

/-- `_sort_by_first_element`: Python's `sorted(tuples,
key=itemgetter(0), reverse=reverse)`.  Python's sort is stable and its
documented `reverse=True` behaviour is a stable *descending* sort
(records with equal keys retain their original order); both directions
are therefore the stable insertion sort for a reflexive total
relation on the first component. -/
def _sort_by_first_element {α : Type} [LinearOrder K] (reverse : Bool)
    (l : List (K × α)) : List (K × α) :=
  if reverse then l.insertionSort (fun a b => b.1 ≤ a.1)
  else l.insertionSort (fun a b => a.1 ≤ b.1)

/-- The sort keys of `sort`: the MSA's own keys when no rule is given
(reading the `keys` property, which raises when keys are absent),
otherwise the rule resolved per row. -/
def sortKeysFor [DecidableEq K] (m : TabularMSA K)
    (key : Option (Minter K)) : Except (Err K) (List K) :=
  match key with
  | none => m.keys
  | some mt => resolveAll mt m._seqs

/-- `sort(key=..., reverse=...)`: derive the per-row sort keys, zip them
with the rows (and the existing keys when present), sort the tuples by
first element, then store the reordered keys via the `keys` setter
(which is `reindex(keys=...)`) and the reordered rows. -/
def sort [LinearOrder K] (m : TabularMSA K) (key : Option (Minter K))
    (reverse : Bool) : OpResult K :=
  match sortKeysFor m key with
  | Except.error e => OpResult.err e m
  | Except.ok sort_keys =>
    if m._seqs.length > 0 then
      match m._keys with
      | some ks =>
        let sorted := _sort_by_first_element reverse
          (sort_keys.zip (m._seqs.zip ks))
        let sorted_seqs := sorted.map (fun t => t.2.1)
        let sorted_keys := sorted.map (fun t => t.2.2)
        match reindex m none (some sorted_keys) with
        | OpResult.err e m' => OpResult.err e m'
        | OpResult.ok m' => OpResult.ok ⟨sorted_seqs, m'._keys⟩
      | none =>
        let sorted := _sort_by_first_element reverse (sort_keys.zip m._seqs)
        OpResult.ok ⟨sorted.map (fun t => t.2), m._keys⟩
    else OpResult.ok m

/-- The `axis` argument of `gap_frequencies`: a string or an integer. -/
inductive AxisArg where
  | str (s : String)
  | int (i : Int)
  deriving DecidableEq

/-- `_is_sequence_axis`: `'sequence'`/`0` are the sequence axis,
`'position'`/`1` the position axis, anything else a `ValueError`. -/
def _is_sequence_axis (axis : AxisArg) : Except (Err K) Bool :=
  match axis with
  | AxisArg.str s =>
    if s = "sequence" then Except.ok true
    else if s = "position" then Except.ok false
    else Except.error (Err.valueError ErrKind.invalidAxis)
  | AxisArg.int i =>
    if i = 0 then Except.ok true
    else if i = 1 then Except.ok false
    else Except.error (Err.valueError ErrKind.invalidAxis)

/-- A numpy floating-point result of the relative-frequency division:
either an exact finite value, or the `inf`/`nan` produced by dividing a
positive/zero numerator by zero (numpy warns but does not raise). -/
inductive PyFloat where
  | finite (q : Rat)
  | inf
  | nan
  deriving DecidableEq

/-- Numpy's elementwise `count / length` on a nonnegative count. -/
def npDiv (a : Nat) (b : Nat) : PyFloat :=
  if b = 0 then (if a = 0 then PyFloat.nan else PyFloat.inf)
  else PyFloat.finite ((a : Rat) / (b : Rat))

/-- The array returned by `gap_frequencies`: an integer vector when
`relative=False`, a float vector when `relative=True`. -/
inductive GapFreqResult where
  | counts (l : List Nat)
  | rel (l : List PyFloat)
  deriving DecidableEq

/-- `seq.frequencies(chars=gap_chars)` summed over its values: the
number of positions of the sequence holding a gap character. -/
def frequenciesSum (gcs : List Char) (cs : List Char) : Nat :=
  cs.countP (fun c => decide (c ∈ gcs))

/-- The gap-character set used by `gap_frequencies`: `self.dtype.gap_chars`
(the dtype is only consulted when at least one sequence is iterated, so
the empty default is never observable). -/
def msaGapChars (m : TabularMSA K) : List Char :=
  match m.dtype with
  | some t => gap_chars t
  | none => []

/-- `_get_position(i)`: the column at position `i`, the `i`-th character
of every row in row order (rows shorter than `i` contribute a
placeholder; under the length invariant every row reaches `i`). -/
def _get_position (m : TabularMSA K) (i : Nat) : List Char :=
  m._seqs.map (fun s => s.chars.getD i ' ')

/-- `gap_frequencies(axis=..., relative=...)`: on the sequence axis the
columns are materialized and one gap count is produced per position; on
the position axis each row is counted directly, one value per row.  With
`relative=True` every count is divided by the axis length (row count or
position count), numpy-style. -/
def gap_frequencies [DecidableEq K] (m : TabularMSA K) (axis : AxisArg)
    (relative : Bool) : Except (Err K) GapFreqResult :=
  match (_is_sequence_axis axis : Except (Err K) Bool) with
  | Except.error e => Except.error e
  | Except.ok isSeqAxis =>
    let charLists : List (List Char) :=
      if isSeqAxis then
        (List.range m.shape.2).map (fun i => _get_position m i)
      else m._seqs.map Seq.chars
    let axisLen : Nat := if isSeqAxis then m.shape.1 else m.shape.2
    let gap_freqs : List Nat :=
      charLists.map (fun cs => frequenciesSum (msaGapChars m) cs)
    if relative then
      Except.ok (GapFreqResult.rel (gap_freqs.map (fun c => npDiv c axisLen)))
    else Except.ok (GapFreqResult.counts gap_freqs)

/-- `to_dict()`: `dict(zip(self.keys, self._seqs))`, modelled as the
association list of (key, sequence) pairs in row order; consumers may
observe any permutation of it (a dict has no order). -/
def to_dict (m : TabularMSA K) : Except (Err K) (List (K × Seq K)) :=
  match m.keys with
  | Except.error e => Except.error e
  | Except.ok ks => Except.ok (ks.zip m._seqs)

/-- `from_dict(d)`: `cls(viewvalues(d), keys=viewkeys(d))` — construct
from the dict's values with the dict's keys, in the dict's (arbitrary
but single) iteration order. -/
def from_dict [DecidableEq K] (d : List (K × Seq K)) : OpResult K :=
  init (d.map Prod.snd) none (some (d.map Prod.fst))

/-- The first character of maximal multiplicity in a column
(`List.argmax` keeps the earliest maximal element — one concrete choice
of the spec's arbitrary tie-break). -/
def mostFrequentChar (cs : List Char) : Char :=
  (List.argmax (fun c => cs.count c) cs).getD '-'

/-- Modelled from the spec: `consensus()` is described by the spec but
absent from `src/`: for each column choose a most frequent character
across the rows (ties broken arbitrarily), concatenate the choices in
column order into a new row of the matrix's row type (a generic untyped
row for an empty matrix), carrying no metadata. -/
def consensus (m : TabularMSA K) : Seq K :=
  { dtype :=
      match m.dtype with
      | some t => t
      | none => SeqType.Generic
  , chars := (List.range m.shape.2).map
      (fun i => mostFrequentChar (_get_position m i))
  , metadata := [] }

/-- One public mutating operation. -/
inductive Op (K : Type) where
  | append (sequence : Seq K) (minter : Option (Minter K)) (key : Option K)
  | reindex (minter : Option (Minter K)) (keys : Option (List K))
  | sort (key : Option (Minter K)) (reverse : Bool)

/-- Run one operation. -/
def runOp [LinearOrder K] (m : TabularMSA K) : Op K → OpResult K
  | Op.append s mt k => append m s mt k
  | Op.reindex mt ks => reindex m mt ks
  | Op.sort k rv => sort m k rv

/-- Run a list of operations, stopping at the first failure. -/
def runOps [LinearOrder K] (m : TabularMSA K) : List (Op K) → OpResult K
  | [] => OpResult.ok m
  | op :: rest =>
    match runOp m op with
    | OpResult.ok m' => runOps m' rest
    | OpResult.err e m' => OpResult.err e m'

/-- States reachable by a successful construction followed by a sequence
of successful public operations. -/
def Reachable [LinearOrder K] (m : TabularMSA K) : Prop :=
  ∃ sequences minter keys0 ops m0,
    init sequences minter keys0 = OpResult.ok m0 ∧
    runOps m0 ops = OpResult.ok m

/-- The data-model invariant: all rows share one concrete type and one
length, every row type has an alphabet, and keys, when present, are one
per row and pairwise distinct. -/
def Inv (m : TabularMSA K) : Prop :=
  (∀ s ∈ m._seqs, ∀ t ∈ m._seqs,
      s.dtype = t.dtype ∧ s.chars.length = t.chars.length) ∧
  (∀ s ∈ m._seqs, isIUPAC s.dtype = true) ∧
  (match m._keys with
   | some ks => ks.length = m._seqs.length ∧ ks.Nodup
   | none => True)

/-! ### Basic facts about duplicate detection and key munging -/

lemma findDupsAux_eq_nil [DecidableEq K] :
    ∀ (xs seen repeated : List K),
      findDupsAux xs seen repeated = [] ↔
        (repeated = [] ∧ xs.Nodup ∧ ∀ x ∈ xs, x ∉ seen) := by
  intro xs
  induction xs with
  | nil =>
    intro seen repeated
    simp [findDupsAux]
  | cons x xs ih =>
    intro seen repeated
    by_cases hx : x ∈ seen
    · rw [findDupsAux, if_pos hx]
      by_cases hr : x ∈ repeated
      · rw [if_pos hr, ih]
        constructor
        · rintro ⟨h1, -, -⟩
          subst h1
          exact absurd hr (List.not_mem_nil x)
        · rintro ⟨-, -, hall⟩
          exact absurd hx (hall x (List.mem_cons_self x xs))
      · rw [if_neg hr, ih]
        constructor
        · rintro ⟨h1, -, -⟩
          exact absurd h1 (List.cons_ne_nil x repeated)
        · rintro ⟨-, -, hall⟩
          exact absurd hx (hall x (List.mem_cons_self x xs))
    · rw [findDupsAux, if_neg hx, ih]
      constructor
      · rintro ⟨h1, h2, h3⟩
        refine ⟨h1, List.nodup_cons.mpr ⟨fun hm => h3 x hm (List.mem_cons_self x seen), h2⟩, ?_⟩
        intro y hy
        rcases List.mem_cons.mp hy with rfl | hy'
        · exact hx
        · exact fun hys => h3 y hy' (List.mem_cons_of_mem x hys)
      · rintro ⟨h1, h2, h3⟩
        rcases List.nodup_cons.mp h2 with ⟨hxn, hnd⟩
        refine ⟨h1, hnd, ?_⟩
        intro y hy hmem
        rcases List.mem_cons.mp hmem with rfl | hys
        · exact hxn hy
        · exact h3 y (List.mem_cons_of_mem x hy) hys

lemma find_duplicates_eq_nil [DecidableEq K] (l : List K) :
    find_duplicates l = [] ↔ l.Nodup := by
  unfold find_duplicates
  rw [findDupsAux_eq_nil]
  simp

lemma munge_ok_of_nodup [DecidableEq K] {ks : List K} (h : ks.Nodup) :
    _munge_keys (some ks) = Except.ok (some ks) := by
  unfold _munge_keys
  simp [(find_duplicates_eq_nil ks).mpr h]

lemma munge_err_of_not_nodup [DecidableEq K] {ks : List K} (h : ¬ ks.Nodup) :
    _munge_keys (some ks) =
      Except.error (Err.uniqueError (find_duplicates ks)) := by
  have hne : find_duplicates ks ≠ [] :=
    fun hc => h ((find_duplicates_eq_nil ks).mp hc)
  unfold _munge_keys
  simp [hne]

lemma find_duplicates_ne_nil [DecidableEq K] {ks : List K} (h : ¬ ks.Nodup) :
    find_duplicates ks ≠ [] :=
  fun hc => h ((find_duplicates_eq_nil ks).mp hc)

lemma munge_some_ok_inv [DecidableEq K] {ks : List K} {o : Option (List K)}
    (h : _munge_keys (some ks) = Except.ok o) : o = some ks ∧ ks.Nodup := by
  by_cases hnd : ks.Nodup
  · rw [munge_ok_of_nodup hnd] at h
    exact ⟨(Except.ok.injEq _ _ ▸ h).symm ▸ rfl, hnd⟩
  · rw [munge_err_of_not_nodup hnd] at h
    cases h

lemma resolveAll_ok_length [DecidableEq K] {mt : Minter K} :
    ∀ {l : List (Seq K)} {ks : List K},
      resolveAll mt l = Except.ok ks → ks.length = l.length := by
  intro l
  induction l with
  | nil =>
    intro ks h
    unfold resolveAll at h
    cases h
    rfl
  | cons s rest ih =>
    intro ks h
    unfold resolveAll at h
    cases h1 : resolve_key s mt with
    | error e => rw [h1] at h; cases h
    | ok k =>
      rw [h1] at h
      cases h2 : resolveAll mt rest with
      | error e => rw [h2] at h; cases h
      | ok ks' =>
        rw [h2] at h
        cases h
        simp [ih h2]

/-! ### C1: no minter is remembered by construction or reindex -/

/-- C1 (amended): on a keyed MSA, `append` called with neither an
explicit key nor a minter *always* raises `OperationError` ("MSA has
keys but no key or minter was provided"), and leaves the MSA unchanged:
no key-derivation rule is remembered from construction or a prior
reindex. -/
theorem append_keyed_requires_key_or_minter [DecidableEq K]
    (m : TabularMSA K) (sequence : Seq K) (h : m.has_keys = true) :
    append m sequence none none =
      OpResult.err (Err.operationError ErrKind.keyRequired) m := by
  unfold append
  simp [h]

/-- Sequence with metadata `id = 7` used in the C1 scenario. -/
def c1seqA : Seq Nat := ⟨SeqType.DNA, ['A'], [("id", 7)]⟩

/-- Sequence with metadata `id = 8` used in the C1 scenario. -/
def c1seqB : Seq Nat := ⟨SeqType.DNA, ['C'], [("id", 8)]⟩

/-- The MSA produced by constructing from `[c1seqA]` with minter `'id'`. -/
def c1msa : TabularMSA Nat := ⟨[c1seqA], some [7]⟩

/-- C1 counterexample: an MSA is built with a minter (so a key-derivation
rule was supplied at construction), yet appending a perfectly valid
sequence with neither key nor minter fails with `OperationError` instead
of applying the remembered rule, refuting the claim that the remembered
rule is applied. -/
theorem append_no_cached_minter_counterexample :
    init [c1seqA] (some (Minter.metadataKey "id")) none = OpResult.ok c1msa ∧
    append c1msa c1seqB none none =
      OpResult.err (Err.operationError ErrKind.keyRequired) c1msa := by
  constructor
  · decide
  · decide

/-- C1 witness: the amended theorem applied to the concrete keyed MSA. -/
theorem append_keyed_requires_key_or_minter_witness :
    c1msa.has_keys = true ∧
    append c1msa c1seqB none none =
      OpResult.err (Err.operationError ErrKind.keyRequired) c1msa :=
  ⟨by decide, append_keyed_requires_key_or_minter c1msa c1seqB (by decide)⟩

/-! ### C2: the worked gap-frequency example -/

/-- The row `DNA('ACG')` of the C2 example. -/
def c2row1 : Seq Nat := ⟨SeqType.DNA, ['A', 'C', 'G'], []⟩

/-- The row `DNA('AC-')` of the C2 example. -/
def c2row2 : Seq Nat := ⟨SeqType.DNA, ['A', 'C', '-'], []⟩

/-- The matrix built from exactly the rows `'ACG'` and `'AC-'`. -/
def c2msa : TabularMSA Nat := ⟨[c2row1, c2row2], none⟩

/-- C2 counterexample: `gap_frequencies(axis='sequence')` on the
two-row example returns the per-position counts `[0, 0, 1]` (the
`'sequence'` axis *is* the default), not the per-row `[0, 1]` the claim
assigns to it. -/
theorem gap_frequencies_axis_counterexample :
    gap_frequencies c2msa (AxisArg.str "sequence") false =
      Except.ok (GapFreqResult.counts [0, 0, 1]) ∧
    gap_frequencies c2msa (AxisArg.str "sequence") false ≠
      Except.ok (GapFreqResult.counts [0, 1]) := by
  constructor
  · decide
  · decide

/-- C2 (amended): for the matrix built from exactly `'ACG'` and `'AC-'`:
the shape is `(2, 3)`; `gap_frequencies` with the default axis
(`'sequence'`) returns the per-position gap counts `[0, 0, 1]`; and the
per-row counts `[0, 1]` are returned by `axis='position'`. -/
theorem gap_frequencies_example :
    init [c2row1, c2row2] none none = OpResult.ok c2msa ∧
    c2msa.shape = (2, 3) ∧
    gap_frequencies c2msa (AxisArg.str "sequence") false =
      Except.ok (GapFreqResult.counts [0, 0, 1]) ∧
    gap_frequencies c2msa (AxisArg.str "position") false =
      Except.ok (GapFreqResult.counts [0, 1]) := by
  refine ⟨by decide, by decide, by decide, by decide⟩

/-! ### C10: membership on an unkeyed MSA raises -/

/-- C10: on an unkeyed MSA, `key in msa` raises `OperationError`
(membership is defined only over the key index, which does not exist),
for every candidate value. -/
theorem contains_unkeyed_raises [DecidableEq K] (m : TabularMSA K) (k : K)
    (h : m.has_keys = false) :
    contains m k = Except.error (Err.operationError ErrKind.noKeysSet) := by
  have h0 : m._keys = none := by
    unfold has_keys at h
    cases hm : m._keys with
    | none => rfl
    | some ks => rw [hm] at h; cases h
  simp [contains, keys, h0]

/-- C10 witness: membership on a concrete unkeyed two-row MSA raises. -/
theorem contains_unkeyed_raises_witness :
    (⟨[⟨SeqType.DNA, ['A'], []⟩], none⟩ : TabularMSA Nat).has_keys = false ∧
    contains (⟨[⟨SeqType.DNA, ['A'], []⟩], none⟩ : TabularMSA Nat) 3 =
      Except.error (Err.operationError ErrKind.noKeysSet) :=
  ⟨by decide, contains_unkeyed_raises _ 3 (by decide)⟩

/-! ### C5: append with a duplicate key is atomic -/

/-- C5: appending a sequence of the right type and length with an
explicit key that duplicates an existing key raises `UniqueError`
naming the duplicate, and the state carried by the error is exactly
the original MSA: no row was added and the keys are untouched
(`_munge_keys` runs before either field is assigned). -/
theorem append_duplicate_key_atomic [DecidableEq K] (m : TabularMSA K)
    (ks : List K) (sequence : Seq K) (k : K)
    (hk : m._keys = some ks) (hdup : k ∈ ks) (hne : m._seqs ≠ [])
    (hdt : some sequence.dtype = m.dtype)
    (hlen : sequence.chars.length = m.shape.2) :
    append m sequence none (some k) =
      OpResult.err (Err.uniqueError (find_duplicates (ks ++ [k]))) m ∧
    find_duplicates (ks ++ [k]) ≠ [] := by
  have hnotnodup : ¬ (ks ++ [k]).Nodup := by
    intro hnd
    rcases List.nodup_append.mp hnd with ⟨-, -, hdisj⟩
    exact hdisj hdup (List.mem_singleton_self k)
  have hhk : m.has_keys = true := by simp [has_keys, hk]
  have hkeysAcc : m.keys = Except.ok ks := by simp [keys, hk]
  have hn0 : ¬ m._seqs.length = 0 := by
    simpa [List.length_eq_zero] using hne
  refine ⟨?_, find_duplicates_ne_nil hnotnodup⟩
  unfold append
  simp only [Option.isSome_some, Option.isSome_none, Bool.and_false,
    Bool.false_eq_true, if_false, hhk, if_true]
  unfold _add_sequence
  rw [if_neg hn0, if_neg (not_not_intro hdt), if_neg (by simp [hlen])]
  simp [hkeysAcc, munge_err_of_not_nodup hnotnodup]

/-- Row `DNA('A')` of the C5 scenario. -/
def c5seqA : Seq Nat := ⟨SeqType.DNA, ['A'], []⟩

/-- Row `DNA('C')` of the C5 scenario. -/
def c5seqC : Seq Nat := ⟨SeqType.DNA, ['C'], []⟩

/-- The keyed two-row MSA of the C5 scenario, keys `[0, 1]`. -/
def c5msa : TabularMSA Nat := ⟨[c5seqA, c5seqC], some [0, 1]⟩

/-- C5 witness: appending `DNA('G')` under the already-used key `0`
fails with `UniqueError` and the carried state is the original MSA. -/
theorem append_duplicate_key_atomic_witness :
    (c5msa._keys = some [0, 1] ∧ (0 : Nat) ∈ [0, 1] ∧
      c5msa._seqs ≠ [] ∧
      some (⟨SeqType.DNA, ['G'], []⟩ : Seq Nat).dtype = c5msa.dtype ∧
      (⟨SeqType.DNA, ['G'], []⟩ : Seq Nat).chars.length = c5msa.shape.2) ∧
    (append c5msa ⟨SeqType.DNA, ['G'], []⟩ none (some 0) =
      OpResult.err (Err.uniqueError (find_duplicates ([0, 1] ++ [0]))) c5msa ∧
    find_duplicates ([0, 1] ++ [0]) ≠ []) :=
  ⟨⟨rfl, by decide, by decide, by decide, by decide⟩,
   append_duplicate_key_atomic c5msa [0, 1] ⟨SeqType.DNA, ['G'], []⟩ 0
     rfl (by decide) (by decide) (by decide) (by decide)⟩

/-! ### C6: reindex with duplicate keys is atomic -/

/-- C6: `reindex` with a duplicate-containing candidate key list (of the
right length) raises `UniqueError` naming the duplicates, and the state
carried by the error is exactly the original MSA, whose `_keys` still
holds the prior key sequence. -/
theorem reindex_duplicate_keys_atomic [DecidableEq K] (m : TabularMSA K)
    (ks newKeys : List K) (hk : m._keys = some ks)
    (hlen : newKeys.length = m._seqs.length) (hdup : ¬ newKeys.Nodup) :
    reindex m none (some newKeys) =
      OpResult.err (Err.uniqueError (find_duplicates newKeys)) m ∧
    find_duplicates newKeys ≠ [] ∧
    m.has_keys = true ∧ m.keys = Except.ok ks := by
  refine ⟨?_, find_duplicates_ne_nil hdup, by simp [has_keys, hk],
    by simp [keys, hk]⟩
  unfold reindex
  simp only [Option.isSome_none, Bool.false_and, Bool.false_eq_true, if_false]
  rw [if_neg (by simp [hlen])]
  simp [munge_err_of_not_nodup hdup]

/-- The keyed two-row MSA of the C6 scenario, keys `[1, 2]`. -/
def c6msa : TabularMSA Nat :=
  ⟨[⟨SeqType.DNA, ['A'], []⟩, ⟨SeqType.DNA, ['C'], []⟩], some [1, 2]⟩

/-- C6 witness: reindexing with `[5, 5]` fails with `UniqueError` and
the carried state still holds keys `[1, 2]`. -/
theorem reindex_duplicate_keys_atomic_witness :
    (c6msa._keys = some [1, 2] ∧
      ([5, 5] : List Nat).length = c6msa._seqs.length ∧
      ¬ ([5, 5] : List Nat).Nodup) ∧
    (reindex c6msa none (some [5, 5]) =
      OpResult.err (Err.uniqueError (find_duplicates [5, 5])) c6msa ∧
    find_duplicates ([5, 5] : List Nat) ≠ [] ∧
    c6msa.has_keys = true ∧ c6msa.keys = Except.ok [1, 2]) :=
  ⟨⟨rfl, by decide, by decide⟩,
   reindex_duplicate_keys_atomic c6msa [1, 2] [5, 5] rfl (by decide)
     (by decide)⟩

/-! ### C9: relative gap frequencies never raise on a zero divisor -/

/-- C9: `gap_frequencies(relative=True)` is total for every valid axis
(the only raise site is the axis check), and on a matrix with at least
one row whose rows all have length zero, `axis='position'` returns one
value per row, each the NaN sentinel produced by numpy's `0/0`. -/
theorem gap_frequencies_relative_total [DecidableEq K] :
    (∀ (m : TabularMSA K) (axis : AxisArg) (b : Bool),
        (_is_sequence_axis axis : Except (Err K) Bool) = Except.ok b →
        ∃ l, gap_frequencies m axis true = Except.ok (GapFreqResult.rel l)) ∧
    (∀ m : TabularMSA K, m._seqs ≠ [] →
        (∀ s ∈ m._seqs, s.chars.length = 0) →
        gap_frequencies m (AxisArg.str "position") true =
          Except.ok (GapFreqResult.rel
            (m._seqs.map (fun _ => PyFloat.nan)))) := by
  constructor
  · intro m axis b h
    have hval : gap_frequencies m axis true = Except.ok (GapFreqResult.rel
        (((if b then (List.range m.shape.2).map (fun i => _get_position m i)
            else m._seqs.map Seq.chars).map
              (fun cs => frequenciesSum (msaGapChars m) cs)).map
          (fun c => npDiv c (if b then m.shape.1 else m.shape.2)))) := by
      unfold gap_frequencies
      rw [h]
      rfl
    exact ⟨_, hval⟩
  · intro m hne hzero
    have hax : (_is_sequence_axis (AxisArg.str "position") :
        Except (Err K) Bool) = Except.ok false := by
      unfold _is_sequence_axis
      simp
    have hshape : m.shape.2 = 0 := by
      obtain ⟨s0, rest, h0⟩ := List.exists_cons_of_ne_nil hne
      have hmem : s0 ∈ m._seqs := by rw [h0]; exact List.mem_cons_self s0 rest
      have hz := hzero s0 hmem
      simp [shape, h0, hz]
    have hval : gap_frequencies m (AxisArg.str "position") true =
        Except.ok (GapFreqResult.rel
          (((m._seqs.map Seq.chars).map
              (fun cs => frequenciesSum (msaGapChars m) cs)).map
            (fun c => npDiv c m.shape.2))) := by
      unfold gap_frequencies
      rw [hax]
      rfl
    rw [hval, hshape]
    congr 1
    congr 1
    rw [List.map_map, List.map_map]
    refine List.map_congr_left ?_
    intro s hs
    have hz : s.chars = [] := List.length_eq_zero.mp (hzero s hs)
    simp [Function.comp, frequenciesSum, hz, npDiv]

/-- C9 witness: the theorem's zero-divisor branch on the concrete MSA
`[DNA('')]`, giving `[nan]`. -/
theorem gap_frequencies_relative_total_witness :
    ((⟨[⟨SeqType.DNA, [], []⟩], none⟩ : TabularMSA Nat)._seqs ≠ [] ∧
      (∀ s ∈ (⟨[⟨SeqType.DNA, [], []⟩], none⟩ : TabularMSA Nat)._seqs,
        s.chars.length = 0)) ∧
    gap_frequencies (⟨[⟨SeqType.DNA, [], []⟩], none⟩ : TabularMSA Nat)
      (AxisArg.str "position") true =
      Except.ok (GapFreqResult.rel
        ((⟨[⟨SeqType.DNA, [], []⟩], none⟩ :
          TabularMSA Nat)._seqs.map (fun _ => PyFloat.nan))) :=
  ⟨⟨by decide, by decide⟩,
   gap_frequencies_relative_total.2 _ (by decide) (by decide)⟩

/-! ### C3: consensus -/

lemma mostFrequentChar_spec (cs : List Char) (h : cs ≠ []) :
    mostFrequentChar cs ∈ cs ∧
      ∀ c ∈ cs, cs.count c ≤ cs.count (mostFrequentChar cs) := by
  unfold mostFrequentChar
  cases harg : List.argmax (fun c => cs.count c) cs with
  | none => exact absurd (List.argmax_eq_none.mp harg) h
  | some mch =>
    have hmem : mch ∈ List.argmax (fun c => cs.count c) cs := by
      rw [harg]; rfl
    constructor
    · simpa using List.argmax_mem hmem
    · intro c hc
      simpa using List.le_of_mem_argmax hc hmem

/-- The three-row matrix `['AC--', 'AT-C', 'TT-C']` of the C3 example. -/
def c3msa : TabularMSA Nat :=
  ⟨[⟨SeqType.DNA, ['A', 'C', '-', '-'], []⟩,
    ⟨SeqType.DNA, ['A', 'T', '-', 'C'], []⟩,
    ⟨SeqType.DNA, ['T', 'T', '-', 'C'], []⟩], none⟩

/-- C3: for every non-empty matrix, `consensus()` returns a row of the
matrix's row type, carrying no metadata, with one character per
position, where the character at each column index has maximal count
among the characters of that column (and belongs to the column); in
particular the consensus of `['AC--', 'AT-C', 'TT-C']` is the DNA row
`"AT-C"`. -/
theorem consensus_spec (m : TabularMSA K) (t : SeqType)
    (hne : m._seqs ≠ []) (hdt : m.dtype = some t) :
    ((consensus m).dtype = t ∧
     (consensus m).metadata = [] ∧
     (consensus m).chars.length = m.shape.2 ∧
     (∀ i, i < m.shape.2 →
        (consensus m).chars.getD i ' ' ∈ _get_position m i ∧
        ∀ c ∈ _get_position m i,
          (_get_position m i).count c ≤
            (_get_position m i).count ((consensus m).chars.getD i ' '))) ∧
    consensus c3msa = ⟨SeqType.DNA, ['A', 'T', '-', 'C'], []⟩ := by
  constructor
  · refine ⟨by simp [consensus, hdt], rfl, by simp [consensus], ?_⟩
    intro i hi
    have hcol : _get_position m i ≠ [] := by
      unfold _get_position
      simpa using hne
    have hch : (consensus m).chars.getD i ' ' =
        mostFrequentChar (_get_position m i) := by
      unfold consensus
      rw [List.getD_eq_getElem?_getD, List.getElem?_map, List.getElem?_range hi]
      rfl
    rw [hch]
    exact mostFrequentChar_spec _ hcol
  · decide

/-- C3 witness: the theorem applied to the concrete three-row matrix. -/
theorem consensus_spec_witness :
    (c3msa._seqs ≠ [] ∧ c3msa.dtype = some SeqType.DNA) ∧
    (((consensus c3msa).dtype = SeqType.DNA ∧
      (consensus c3msa).metadata = [] ∧
      (consensus c3msa).chars.length = c3msa.shape.2 ∧
      (∀ i, i < c3msa.shape.2 →
        (consensus c3msa).chars.getD i ' ' ∈ _get_position c3msa i ∧
        ∀ c ∈ _get_position c3msa i,
          (_get_position c3msa i).count c ≤
            (_get_position c3msa i).count
              ((consensus c3msa).chars.getD i ' '))) ∧
     consensus c3msa = ⟨SeqType.DNA, ['A', 'T', '-', 'C'], []⟩) :=
  ⟨⟨by decide, by decide⟩,
   consensus_spec c3msa SeqType.DNA (by decide) (by decide)⟩

/-! ### Sorting infrastructure: stability and success lemmas -/

lemma filter_orderedInsert {α : Type} (r : α → α → Prop) [DecidableRel r]
    (p : α → Bool) (x : α) :
    ∀ l : List α, (p x = true → ∀ b ∈ l, p b = true → r x b) →
      (l.orderedInsert r x).filter p =
        if p x then x :: l.filter p else l.filter p := by
  intro l
  induction l with
  | nil =>
    intro _
    cases hpx : p x <;> simp [List.orderedInsert, List.filter_cons, hpx]
  | cons y ys ih =>
    intro hx
    rw [List.orderedInsert]
    by_cases hr : r x y
    · rw [if_pos hr]
      cases hpx : p x <;> cases hpy : p y <;>
        simp [List.filter_cons, hpx, hpy]
    · rw [if_neg hr]
      have ih' := ih (fun hpx b hb hpb => hx hpx b (List.mem_cons_of_mem y hb) hpb)
      cases hpx : p x with
      | false => simp [List.filter_cons, hpx, ih']
      | true =>
        have hpy : p y = false := by
          cases hpyc : p y
          · rfl
          · exact absurd (hx hpx y (List.mem_cons_self y ys) hpyc) hr
        simp [List.filter_cons, hpx, hpy, ih']

lemma filter_insertionSort {α : Type} (r : α → α → Prop) [DecidableRel r]
    (p : α → Bool) (hp : ∀ a b, p a = true → p b = true → r a b) :
    ∀ l : List α, (l.insertionSort r).filter p = l.filter p := by
  intro l
  induction l with
  | nil => rfl
  | cons x xs ih =>
    rw [List.insertionSort,
      filter_orderedInsert r p x _ (fun hpx b _ hpb => hp x b hpx hpb),
      ih, List.filter_cons]

instance fstLeIsTotal {α : Type} [LinearOrder K] :
    IsTotal (K × α) (fun a b => a.1 ≤ b.1) :=
  ⟨fun a b => le_total a.1 b.1⟩

instance fstLeIsTrans {α : Type} [LinearOrder K] :
    IsTrans (K × α) (fun a b => a.1 ≤ b.1) :=
  ⟨fun _ _ _ hab hbc => le_trans hab hbc⟩

instance fstGeIsTotal {α : Type} [LinearOrder K] :
    IsTotal (K × α) (fun a b => b.1 ≤ a.1) :=
  ⟨fun a b => le_total b.1 a.1⟩

instance fstGeIsTrans {α : Type} [LinearOrder K] :
    IsTrans (K × α) (fun a b => b.1 ≤ a.1) :=
  ⟨fun _ _ _ hab hbc => le_trans hbc hab⟩

lemma reindex_explicit_ok [DecidableEq K] (m : TabularMSA K) (l : List K)
    (hlen : l.length = m._seqs.length) (hnd : l.Nodup) :
    reindex m none (some l) = OpResult.ok ⟨m._seqs, some l⟩ := by
  unfold reindex
  simp only [Option.isSome_none, Bool.false_and, Bool.false_eq_true, if_false]
  rw [if_neg (by simp [hlen])]
  simp [munge_ok_of_nodup hnd]

/-- `sort` on a keyed MSA with well-formed keys and resolvable sort keys
succeeds, producing the projections of the stable-sorted tuple list. -/
lemma sort_keyed_ok [LinearOrder K] (m : TabularMSA K)
    (key : Option (Minter K)) (rv : Bool) (ks sks : List K)
    (hk : m._keys = some ks) (hsk : sortKeysFor m key = Except.ok sks)
    (hskl : sks.length = m._seqs.length)
    (hnd : ks.Nodup) (hlen : ks.length = m._seqs.length)
    (hne : m._seqs ≠ []) :
    sort m key rv = OpResult.ok
      ⟨(_sort_by_first_element rv (sks.zip (m._seqs.zip ks))).map
          (fun t => t.2.1),
        some ((_sort_by_first_element rv (sks.zip (m._seqs.zip ks))).map
          (fun t => t.2.2))⟩ := by
  have hn0 : 0 < m._seqs.length := List.length_pos.mpr hne
  have hzlen : (sks.zip (m._seqs.zip ks)).length = m._seqs.length := by
    simp [List.length_zip, hskl, hlen]
  have hperm : List.Perm
      (_sort_by_first_element rv (sks.zip (m._seqs.zip ks)))
      (sks.zip (m._seqs.zip ks)) := by
    unfold _sort_by_first_element
    cases rv
    · simpa using List.perm_insertionSort _ _
    · simpa using List.perm_insertionSort _ _
  have hmapkeys : (sks.zip (m._seqs.zip ks)).map (fun t => t.2.2) = ks := by
    have h1 : (sks.zip (m._seqs.zip ks)).map Prod.snd = m._seqs.zip ks :=
      List.map_snd_zip _ _ (by simp [List.length_zip, hskl, hlen])
    have h2 : (m._seqs.zip ks).map Prod.snd = ks :=
      List.map_snd_zip _ _ (le_of_eq hlen)
    calc (sks.zip (m._seqs.zip ks)).map (fun t => t.2.2)
        = ((sks.zip (m._seqs.zip ks)).map Prod.snd).map Prod.snd := by
          rw [List.map_map]; rfl
      _ = ks := by rw [h1, h2]
  have hkperm : List.Perm
      ((_sort_by_first_element rv (sks.zip (m._seqs.zip ks))).map
        (fun t => t.2.2)) ks := by
    have hmp := hperm.map (fun t : K × (Seq K × K) => t.2.2)
    rw [hmapkeys] at hmp
    exact hmp
  have hndk : ((_sort_by_first_element rv (sks.zip (m._seqs.zip ks))).map
      (fun t => t.2.2)).Nodup := hkperm.nodup_iff.mpr hnd
  have hlenk : ((_sort_by_first_element rv (sks.zip (m._seqs.zip ks))).map
      (fun t => t.2.2)).length = m._seqs.length := by
    rw [List.length_map, hperm.length_eq, hzlen]
  unfold sort
  rw [hsk]
  simp only [hk, gt_iff_lt, if_pos hn0]
  rw [reindex_explicit_ok m _ hlenk hndk]

/-! ### C4: `reverse=True` is a stable descending sort -/

/-- Row `DNA('A')` of the C4 counterexample. -/
def c4seqA : Seq Nat := ⟨SeqType.DNA, ['A'], []⟩

/-- Row `DNA('C')` of the C4 counterexample. -/
def c4seqC : Seq Nat := ⟨SeqType.DNA, ['C'], []⟩

/-- Keyed two-row MSA of the C4 counterexample, keys `[0, 1]`. -/
def c4msa : TabularMSA Nat := ⟨[c4seqA, c4seqC], some [0, 1]⟩

/-- C4 counterexample: under a constant sort-key rule (every row tied)
and `reverse=True`, the two tied rows keep their original relative
order (`['A', 'C']`, keys `[0, 1]`): the result predicted by the claim
— reversed tied rows `['C', 'A']` with keys `[1, 0]` — is not
produced. -/
theorem sort_reverse_ties_counterexample :
    sort c4msa (some (Minter.callable (fun _ => (5 : Nat)))) true =
      OpResult.ok c4msa ∧
    sort c4msa (some (Minter.callable (fun _ => (5 : Nat)))) true ≠
      OpResult.ok ⟨[c4seqC, c4seqA], some [1, 0]⟩ := by
  constructor
  · decide
  · decide

/-- C4 (amended): `sort` with `reverse=True` performs a stable
*descending* sort (Python's documented `sorted(..., reverse=True)`
semantics): the result is a permutation of the `(sort key, (row, key))`
tuples that is non-increasing in the sort key, and for every sort-key
value the tied tuples appear in exactly their original relative order
(not reversed). -/
theorem sort_reverse_stable_descending [LinearOrder K] (m : TabularMSA K)
    (mt : Minter K) (sks ks : List K) (m' : TabularMSA K)
    (hsk : resolveAll mt m._seqs = Except.ok sks)
    (hk : m._keys = some ks)
    (hnd : ks.Nodup) (hlen : ks.length = m._seqs.length)
    (hne : m._seqs ≠ [])
    (hok : sort m (some mt) true = OpResult.ok m') :
    ∃ sorted : List (K × (Seq K × K)),
      List.Perm sorted (sks.zip (m._seqs.zip ks)) ∧
      m'._seqs = sorted.map (fun t => t.2.1) ∧
      m'._keys = some (sorted.map (fun t => t.2.2)) ∧
      (∀ k : K, sorted.filter (fun t => decide (t.1 = k)) =
        (sks.zip (m._seqs.zip ks)).filter (fun t => decide (t.1 = k))) ∧
      List.Pairwise (fun a b : K × (Seq K × K) => b.1 ≤ a.1) sorted := by
  have hskl : sks.length = m._seqs.length := resolveAll_ok_length hsk
  have hsk' : sortKeysFor m (some mt) = Except.ok sks := by
    unfold sortKeysFor
    exact hsk
  have hcomp := sort_keyed_ok m (some mt) true ks sks hk hsk' hskl hnd hlen hne
  rw [hok] at hcomp
  have hm' : m' =
      ⟨(_sort_by_first_element true (sks.zip (m._seqs.zip ks))).map
          (fun t => t.2.1),
        some ((_sort_by_first_element true (sks.zip (m._seqs.zip ks))).map
          (fun t => t.2.2))⟩ := by
    cases hcomp
    rfl
  refine ⟨_sort_by_first_element true (sks.zip (m._seqs.zip ks)),
    ?_, by rw [hm'], by rw [hm'], ?_, ?_⟩
  · unfold _sort_by_first_element
    simpa using List.perm_insertionSort _ _
  · intro k
    unfold _sort_by_first_element
    simp only [if_pos rfl]
    refine filter_insertionSort _ _ ?_ _
    intro a b hpa hpb
    have ha : a.1 = k := of_decide_eq_true hpa
    have hb : b.1 = k := of_decide_eq_true hpb
    rw [ha, hb]
  · unfold _sort_by_first_element
    simp only [if_pos rfl]
    exact List.sorted_insertionSort _ _

/-- Row with metadata `id = 5` at key `0` of the C4 witness. -/
def c4wseqA : Seq Nat := ⟨SeqType.DNA, ['A'], [("id", 5)]⟩

/-- Row with metadata `id = 5` at key `1` of the C4 witness. -/
def c4wseqC : Seq Nat := ⟨SeqType.DNA, ['C'], [("id", 5)]⟩

/-- Keyed two-row MSA of the C4 witness. -/
def c4wmsa : TabularMSA Nat := ⟨[c4wseqA, c4wseqC], some [0, 1]⟩

/-- C4 witness: the amended theorem applied to a concrete keyed MSA
whose rows are all tied under the minter `'id'`. -/
theorem sort_reverse_stable_descending_witness :
    (resolveAll (Minter.metadataKey "id") c4wmsa._seqs =
        Except.ok [5, 5] ∧
      c4wmsa._keys = some [0, 1] ∧
      ([0, 1] : List Nat).Nodup ∧
      ([0, 1] : List Nat).length = c4wmsa._seqs.length ∧
      c4wmsa._seqs ≠ [] ∧
      sort c4wmsa (some (Minter.metadataKey "id")) true =
        OpResult.ok c4wmsa) ∧
    ∃ sorted : List (Nat × (Seq Nat × Nat)),
      List.Perm sorted (([5, 5] : List Nat).zip (c4wmsa._seqs.zip [0, 1])) ∧
      c4wmsa._seqs = sorted.map (fun t => t.2.1) ∧
      c4wmsa._keys = some (sorted.map (fun t => t.2.2)) ∧
      (∀ k : Nat, sorted.filter (fun t => decide (t.1 = k)) =
        (([5, 5] : List Nat).zip (c4wmsa._seqs.zip [0, 1])).filter
          (fun t => decide (t.1 = k))) ∧
      List.Pairwise (fun a b : Nat × (Seq Nat × Nat) => b.1 ≤ a.1) sorted :=
  ⟨⟨by decide, rfl, by decide, by decide, by decide, by decide⟩,
   sort_reverse_stable_descending c4wmsa (Minter.metadataKey "id")
     [5, 5] [0, 1] c4wmsa (by decide) rfl (by decide) (by decide)
     (by decide) (by decide)⟩

/-! ### C7: the invariants hold in every reachable state -/

lemma dtype_of_cons {m : TabularMSA K} {s0 : Seq K} {rest : List (Seq K)}
    (hseqs : m._seqs = s0 :: rest) : m.dtype = some s0.dtype := by
  simp [dtype, hseqs]

lemma shape2_of_cons {m : TabularMSA K} {s0 : Seq K} {rest : List (Seq K)}
    (hseqs : m._seqs = s0 :: rest) : m.shape.2 = s0.chars.length := by
  simp [shape, hseqs]

lemma inv_keys_part {m : TabularMSA K} {ks : List K} (hm : Inv m)
    (hk : m._keys = some ks) : ks.length = m._seqs.length ∧ ks.Nodup := by
  have h := hm.2.2
  rw [hk] at h
  exact h

/-- The empty MSA satisfies the invariant. -/
lemma inv_empty : Inv (⟨[], none⟩ : TabularMSA K) := by
  refine ⟨?_, ?_, ?_⟩ <;> simp [Inv]

lemma reindex_none_none_ok [DecidableEq K] (m : TabularMSA K) :
    reindex m none none = OpResult.ok ⟨m._seqs, none⟩ := by
  unfold reindex
  simp [_munge_keys]

lemma reindex_explicit_ok_inv [DecidableEq K] {m mr : TabularMSA K}
    {l : List K} (h : reindex m none (some l) = OpResult.ok mr) :
    mr = ⟨m._seqs, some l⟩ ∧ l.length = m._seqs.length ∧ l.Nodup := by
  by_cases hlen : l.length = m._seqs.length
  · by_cases hnd : l.Nodup
    · rw [reindex_explicit_ok m l hlen hnd] at h
      cases h
      exact ⟨rfl, hlen, hnd⟩
    · have herr : reindex m none (some l) =
          OpResult.err (Err.uniqueError (find_duplicates l)) m := by
        unfold reindex
        simp only [Option.isSome_none, Bool.false_and, Bool.false_eq_true,
          if_false]
        rw [if_neg (by simp [hlen])]
        simp [munge_err_of_not_nodup hnd]
      rw [herr] at h
      cases h
  · have herr : reindex m none (some l) =
        OpResult.err (Err.valueError ErrKind.keyCountMismatch) m := by
      unfold reindex
      simp only [Option.isSome_none, Bool.false_and, Bool.false_eq_true,
        if_false]
      rw [if_pos (by simp [hlen])]
    rw [herr] at h
    cases h

lemma _add_sequence_inv [DecidableEq K] {m m' : TabularMSA K} {s : Seq K}
    {k : Option K} (hm : Inv m)
    (hkk : m.has_keys = true → k.isSome = true)
    (h : _add_sequence m s k = OpResult.ok m') : Inv m' := by
  unfold _add_sequence at h
  split at h
  · next h0 =>
    have hseqs : m._seqs = [] := List.length_eq_zero.mp h0
    split at h
    · cases h
    · next hIU =>
      have hIU2 : isIUPAC s.dtype = true := by
        cases hc : isIUPAC s.dtype
        · exact absurd hc hIU
        · rfl
      split at h
      · next k0 =>
        split at h
        · cases h
        · next munged hmeq =>
          obtain ⟨rfl, -⟩ := munge_some_ok_inv hmeq
          cases h
          refine ⟨?_, ?_, ?_⟩
          · intro x hx y hy
            rw [List.mem_singleton.mp hx, List.mem_singleton.mp hy]
            exact ⟨rfl, rfl⟩
          · intro x hx
            rw [List.mem_singleton.mp hx]
            exact hIU2
          · exact ⟨rfl, List.nodup_singleton k0⟩
      · cases h
        have hkeys : m._keys = none := by
          cases hc : m._keys with
          | none => rfl
          | some ks =>
            have hhk : m.has_keys = true := by simp [has_keys, hc]
            cases hkk hhk
        rw [hkeys]
        refine ⟨?_, ?_, trivial⟩
        · intro x hx y hy
          rw [List.mem_singleton.mp hx, List.mem_singleton.mp hy]
          exact ⟨rfl, rfl⟩
        · intro x hx
          rw [List.mem_singleton.mp hx]
          exact hIU2
  · next h0 =>
    have hne : m._seqs ≠ [] := fun hnil => h0 (by rw [hnil]; rfl)
    obtain ⟨s0, rest, hseqs⟩ := List.exists_cons_of_ne_nil hne
    split at h
    · cases h
    · next hdt =>
      push_neg at hdt
      split at h
      · cases h
      · next hlen =>
        push_neg at hlen
        have hdts0 : s.dtype = s0.dtype :=
          Option.some.inj (hdt.trans (dtype_of_cons hseqs))
        have hlens0 : s.chars.length = s0.chars.length :=
          hlen.trans (shape2_of_cons hseqs)
        have hall : ∀ x ∈ m._seqs ++ [s],
            x.dtype = s0.dtype ∧ x.chars.length = s0.chars.length := by
          intro x hx
          rcases List.mem_append.mp hx with hx | hx
          · exact hm.1 x hx s0 (hseqs ▸ List.mem_cons_self s0 rest)
          · rw [List.mem_singleton.mp hx]
            exact ⟨hdts0, hlens0⟩
        have hseqpart : ∀ x ∈ m._seqs ++ [s], ∀ y ∈ m._seqs ++ [s],
            x.dtype = y.dtype ∧ x.chars.length = y.chars.length := by
          intro x hx y hy
          exact ⟨(hall x hx).1.trans (hall y hy).1.symm,
            (hall x hx).2.trans (hall y hy).2.symm⟩
        have hiupart : ∀ x ∈ m._seqs ++ [s], isIUPAC x.dtype = true := by
          intro x hx
          rcases List.mem_append.mp hx with hx | hx
          · exact hm.2.1 x hx
          · rw [List.mem_singleton.mp hx, hdts0]
            exact hm.2.1 s0 (hseqs ▸ List.mem_cons_self s0 rest)
        split at h
        · next k0 =>
          split at h
          · cases h
          · next ks hkeq =>
            have hks2 : m._keys = some ks := by
              unfold keys at hkeq
              cases hc : m._keys with
              | none => rw [hc] at hkeq; cases hkeq
              | some ks1 =>
                rw [hc] at hkeq
                cases hkeq
                rfl
            split at h
            · cases h
            · next munged hmeq =>
              obtain ⟨rfl, hnd⟩ := munge_some_ok_inv hmeq
              cases h
              refine ⟨hseqpart, hiupart, ?_⟩
              have hkl := (inv_keys_part hm hks2).1
              exact ⟨by simp [hkl], hnd⟩
        · cases h
          refine ⟨hseqpart, hiupart, ?_⟩
          cases hc : m._keys with
          | none => trivial
          | some ks =>
            have hhk : m.has_keys = true := by simp [has_keys, hc]
            cases hkk hhk

lemma _add_sequence_none_keys [DecidableEq K] {m m' : TabularMSA K}
    {s : Seq K} (h : _add_sequence m s none = OpResult.ok m') :
    m'._keys = m._keys ∧ m'._seqs = m._seqs ++ [s] := by
  unfold _add_sequence at h
  split at h
  · next h0 =>
    split at h
    · cases h
    · cases h
      exact ⟨rfl, by rw [List.length_eq_zero.mp h0]; rfl⟩
  · split at h
    · cases h
    · split at h
      · cases h
      · cases h
        exact ⟨rfl, rfl⟩

lemma append_inv [DecidableEq K] {m m' : TabularMSA K} {s : Seq K}
    {mt : Option (Minter K)} {k : Option K} (hm : Inv m)
    (h : append m s mt k = OpResult.ok m') : Inv m' := by
  cases k with
  | some k0 =>
    cases mt with
    | some mt0 =>
      have herr : append m s (some mt0) (some k0) =
          OpResult.err (Err.valueError ErrKind.conflictingKeyArguments) m := by
        unfold append
        simp
      rw [herr] at h
      cases h
    | none =>
      by_cases hhk : m.has_keys = true
      · have hstep : append m s none (some k0) =
            _add_sequence m s (some k0) := by
          unfold append
          simp [hhk]
        rw [hstep] at h
        refine _add_sequence_inv hm ?_ h
        exact fun _ => rfl
      · have herr : append m s none (some k0) =
            OpResult.err (Err.operationError ErrKind.keyWithoutKeys) m := by
          unfold append
          simp [hhk]
        rw [herr] at h
        cases h
  | none =>
    cases mt with
    | some mt0 =>
      by_cases hhk : m.has_keys = true
      · cases hres : resolve_key s mt0 with
        | error e =>
          have herr : append m s (some mt0) none = OpResult.err e m := by
            unfold append
            simp [hhk, hres]
          rw [herr] at h
          cases h
        | ok k1 =>
          have hstep : append m s (some mt0) none =
              _add_sequence m s (some k1) := by
            unfold append
            simp [hhk, hres]
          rw [hstep] at h
          refine _add_sequence_inv hm ?_ h
          exact fun _ => rfl
      · have herr : append m s (some mt0) none =
            OpResult.err (Err.operationError ErrKind.minterWithoutKeys) m := by
          unfold append
          simp [hhk]
        rw [herr] at h
        cases h
    | none =>
      by_cases hhk : m.has_keys = true
      · have herr : append m s none none =
            OpResult.err (Err.operationError ErrKind.keyRequired) m := by
          unfold append
          simp [hhk]
        rw [herr] at h
        cases h
      · have hstep : append m s none none = _add_sequence m s none := by
          unfold append
          simp [hhk]
        rw [hstep] at h
        exact _add_sequence_inv hm (fun hc => absurd hc hhk) h

lemma reindex_inv [DecidableEq K] {m m' : TabularMSA K}
    {mt : Option (Minter K)} {okeys : Option (List K)} (hm : Inv m)
    (h : reindex m mt okeys = OpResult.ok m') : Inv m' := by
  cases mt with
  | some mt0 =>
    cases okeys with
    | some l =>
      have herr : reindex m (some mt0) (some l) =
          OpResult.err (Err.valueError ErrKind.conflictingKeyArguments) m := by
        unfold reindex
        simp
      rw [herr] at h
      cases h
    | none =>
      cases hres : resolveAll mt0 m._seqs with
      | error e =>
        have herr : reindex m (some mt0) none = OpResult.err e m := by
          unfold reindex
          simp [hres]
        rw [herr] at h
        cases h
      | ok ks1 =>
        by_cases hnd : ks1.Nodup
        · have hok : reindex m (some mt0) none =
              OpResult.ok ⟨m._seqs, some ks1⟩ := by
            unfold reindex
            simp [hres, munge_ok_of_nodup hnd]
          rw [hok] at h
          cases h
          exact ⟨hm.1, hm.2.1, ⟨resolveAll_ok_length hres, hnd⟩⟩
        · have herr : reindex m (some mt0) none =
              OpResult.err (Err.uniqueError (find_duplicates ks1)) m := by
            unfold reindex
            simp [hres, munge_err_of_not_nodup hnd]
          rw [herr] at h
          cases h
  | none =>
    cases okeys with
    | some l =>
      obtain ⟨rfl, hlen, hnd⟩ := reindex_explicit_ok_inv h
      exact ⟨hm.1, hm.2.1, ⟨hlen, hnd⟩⟩
    | none =>
      rw [reindex_none_none_ok] at h
      cases h
      exact ⟨hm.1, hm.2.1, trivial⟩

lemma zipped_map_fst {α : Type} (sks : List K) (l : List (Seq K)) (ks : List α)
    (h1 : sks.length = l.length) (h2 : ks.length = l.length) :
    (sks.zip (l.zip ks)).map (fun t => t.2.1) = l := by
  have ha : (sks.zip (l.zip ks)).map Prod.snd = l.zip ks :=
    List.map_snd_zip _ _ (by simp [List.length_zip, h1, h2])
  have hb : (l.zip ks).map Prod.fst = l :=
    List.map_fst_zip _ _ (le_of_eq h2.symm)
  calc (sks.zip (l.zip ks)).map (fun t => t.2.1)
      = ((sks.zip (l.zip ks)).map Prod.snd).map Prod.fst := by
        rw [List.map_map]; rfl
    _ = l := by rw [ha, hb]

lemma sortKeysFor_none_of_keys [DecidableEq K] {m : TabularMSA K}
    {ks : List K} (hks : m._keys = some ks) :
    sortKeysFor m none = Except.ok ks := by
  unfold sortKeysFor keys
  simp [hks]

lemma sortKeysFor_ok_length [DecidableEq K] {m : TabularMSA K}
    {key : Option (Minter K)} {sks : List K} (hm : Inv m)
    (h : sortKeysFor m key = Except.ok sks) :
    sks.length = m._seqs.length := by
  cases key with
  | none =>
    cases hks : m._keys with
    | none =>
      have herr : sortKeysFor m none =
          Except.error (Err.operationError ErrKind.noKeysSet) := by
        unfold sortKeysFor keys
        simp [hks]
      rw [herr] at h
      cases h
    | some ks =>
      rw [sortKeysFor_none_of_keys hks] at h
      cases h
      exact (inv_keys_part hm hks).1
  | some mt0 =>
    unfold sortKeysFor at h
    exact resolveAll_ok_length h

lemma sort_perm_aux {β : Type} [LinearOrder K] (rv : Bool)
    (l : List (K × β)) :
    List.Perm (_sort_by_first_element rv l) l := by
  unfold _sort_by_first_element
  cases rv
  · simpa using List.perm_insertionSort _ _
  · simpa using List.perm_insertionSort _ _

lemma zipped_map_snd {α : Type} (sks : List K) (l : List (Seq K)) (ks : List α)
    (h1 : sks.length = l.length) (h2 : ks.length = l.length) :
    (sks.zip (l.zip ks)).map (fun t => t.2.2) = ks := by
  have ha : (sks.zip (l.zip ks)).map Prod.snd = l.zip ks :=
    List.map_snd_zip _ _ (by simp [List.length_zip, h1, h2])
  have hb : (l.zip ks).map Prod.snd = ks :=
    List.map_snd_zip _ _ (le_of_eq h2)
  calc (sks.zip (l.zip ks)).map (fun t => t.2.2)
      = ((sks.zip (l.zip ks)).map Prod.snd).map Prod.snd := by
        rw [List.map_map]; rfl
    _ = ks := by rw [ha, hb]

lemma sort_inv [LinearOrder K] {m m' : TabularMSA K}
    {key : Option (Minter K)} {rv : Bool} (hm : Inv m)
    (h : sort m key rv = OpResult.ok m') : Inv m' := by
  cases hsk : sortKeysFor m key with
  | error e =>
    have herr : sort m key rv = OpResult.err e m := by
      unfold sort
      simp [hsk]
    rw [herr] at h
    cases h
  | ok sks =>
    by_cases hn0 : m._seqs.length > 0
    · have hne : m._seqs ≠ [] := by
        intro hnil
        rw [hnil] at hn0
        exact absurd hn0 (by simp)
      have hskl : sks.length = m._seqs.length := sortKeysFor_ok_length hm hsk
      cases hks : m._keys with
      | some ks =>
        obtain ⟨hkl, hknd⟩ := inv_keys_part hm hks
        rw [sort_keyed_ok m key rv ks sks hks hsk hskl hknd hkl hne] at h
        cases h
        have hperm := (sort_perm_aux rv (sks.zip (m._seqs.zip ks))).map
          (fun t : K × (Seq K × K) => t.2.1)
        rw [zipped_map_fst sks m._seqs ks hskl hkl] at hperm
        have hkperm := (sort_perm_aux rv (sks.zip (m._seqs.zip ks))).map
          (fun t : K × (Seq K × K) => t.2.2)
        rw [zipped_map_snd sks m._seqs ks hskl hkl] at hkperm
        refine ⟨?_, ?_, ?_⟩
        · intro x hx y hy
          exact hm.1 x (hperm.mem_iff.mp hx) y (hperm.mem_iff.mp hy)
        · intro x hx
          exact hm.2.1 x (hperm.mem_iff.mp hx)
        · refine ⟨?_, hkperm.nodup_iff.mpr hknd⟩
          rw [hkperm.length_eq, hperm.length_eq, hkl]
      | none =>
        have hok : sort m key rv = OpResult.ok
            ⟨(_sort_by_first_element rv (sks.zip m._seqs)).map
              (fun t => t.2), none⟩ := by
          unfold sort
          simp [hsk, hn0, hks]
        rw [hok] at h
        cases h
        have hmap : (sks.zip m._seqs).map (fun t => t.2) = m._seqs :=
          List.map_snd_zip _ _ (le_of_eq hskl.symm)
        have hperm := (sort_perm_aux rv (sks.zip m._seqs)).map
          (fun t : K × Seq K => t.2)
        rw [hmap] at hperm
        refine ⟨?_, ?_, trivial⟩
        · intro x hx y hy
          exact hm.1 x (hperm.mem_iff.mp hx) y (hperm.mem_iff.mp hy)
        · intro x hx
          exact hm.2.1 x (hperm.mem_iff.mp hx)
    · have hok : sort m key rv = OpResult.ok m := by
        unfold sort
        simp [hsk, hn0]
      rw [hok] at h
      cases h
      exact hm

lemma initLoop_inv [DecidableEq K] :
    ∀ {rows : List (Seq K)} {m m' : TabularMSA K}, Inv m →
      m._keys = none → initLoop m rows = OpResult.ok m' → Inv m' := by
  intro rows
  induction rows with
  | nil =>
    intro m m' hm _ h
    unfold initLoop at h
    simp only [OpResult.ok.injEq] at h
    subst h
    exact hm
  | cons s rest ih =>
    intro m m' hm hkeys h
    unfold initLoop at h
    cases ha : _add_sequence m s none with
    | err e m1 =>
      rw [ha] at h
      cases h
    | ok m1 =>
      rw [ha] at h
      have hm1 : Inv m1 := _add_sequence_inv hm
        (fun hc => by
          unfold has_keys at hc
          rw [hkeys] at hc
          cases hc) ha
      have hk1 : m1._keys = none := by
        rw [(_add_sequence_none_keys ha).1, hkeys]
      exact ih hm1 hk1 h

lemma init_inv [DecidableEq K] {sequences : List (Seq K)}
    {mt : Option (Minter K)} {okeys : Option (List K)} {m' : TabularMSA K}
    (h : init sequences mt okeys = OpResult.ok m') : Inv m' := by
  unfold init at h
  cases hl : initLoop (⟨[], none⟩ : TabularMSA K) sequences with
  | err e m1 =>
    rw [hl] at h
    cases h
  | ok m1 =>
    rw [hl] at h
    exact reindex_inv (initLoop_inv inv_empty rfl hl) h

lemma runOps_inv [LinearOrder K] :
    ∀ {ops : List (Op K)} {m m' : TabularMSA K}, Inv m →
      runOps m ops = OpResult.ok m' → Inv m' := by
  intro ops
  induction ops with
  | nil =>
    intro m m' hm h
    unfold runOps at h
    simp only [OpResult.ok.injEq] at h
    subst h
    exact hm
  | cons op rest ih =>
    intro m m' hm h
    unfold runOps at h
    cases ho : runOp m op with
    | err e m1 =>
      rw [ho] at h
      cases h
    | ok m1 =>
      rw [ho] at h
      refine ih ?_ h
      cases op with
      | append s mt k => exact append_inv hm ho
      | reindex mt ks => exact reindex_inv hm ho
      | sort k rv => exact sort_inv hm ho

/-- C7: in every state reachable by construction plus successful
`append`/`reindex`/`sort` operations, the row count equals the number of
stored rows, every row's length equals the position count, all rows
share one concrete type, and it is never the case that the row count is
zero while the position count is positive. -/
theorem reachable_invariants [LinearOrder K] (m : TabularMSA K)
    (h : Reachable m) :
    m.shape.1 = m._seqs.length ∧
    (∀ s ∈ m._seqs, s.chars.length = m.shape.2) ∧
    (∀ s ∈ m._seqs, ∀ t ∈ m._seqs, s.dtype = t.dtype) ∧
    ¬ (m._seqs.length = 0 ∧ 0 < m.shape.2) := by
  obtain ⟨seqs0, mt0, ks0, ops, m0, hinit, hops⟩ := h
  have hm : Inv m := runOps_inv (init_inv hinit) hops
  refine ⟨rfl, ?_, fun s hs t ht => (hm.1 s hs t ht).1, ?_⟩
  · intro s hs
    obtain ⟨s0, rest, hseqs⟩ :=
      List.exists_cons_of_ne_nil (List.ne_nil_of_mem hs)
    rw [shape2_of_cons hseqs]
    exact (hm.1 s hs s0 (hseqs ▸ List.mem_cons_self s0 rest)).2
  · rintro ⟨hlen0, hpos⟩
    have hnil : m._seqs = [] := List.length_eq_zero.mp hlen0
    have : m.shape.2 = 0 := by simp [shape, hnil]
    rw [this] at hpos
    exact absurd hpos (by simp)

/-- C7 witness: a concrete reachable state (constructed from one row,
then one append and one reindex) satisfies the invariants. -/
theorem reachable_invariants_witness :
    Reachable (⟨[⟨SeqType.DNA, ['A'], []⟩, ⟨SeqType.DNA, ['C'], []⟩],
      some [4, 9]⟩ : TabularMSA Nat) ∧
    ((⟨[⟨SeqType.DNA, ['A'], []⟩, ⟨SeqType.DNA, ['C'], []⟩],
        some [4, 9]⟩ : TabularMSA Nat).shape.1 =
      (⟨[⟨SeqType.DNA, ['A'], []⟩, ⟨SeqType.DNA, ['C'], []⟩],
        some [4, 9]⟩ : TabularMSA Nat)._seqs.length ∧
     (∀ s ∈ (⟨[⟨SeqType.DNA, ['A'], []⟩, ⟨SeqType.DNA, ['C'], []⟩],
        some [4, 9]⟩ : TabularMSA Nat)._seqs,
        s.chars.length = (⟨[⟨SeqType.DNA, ['A'], []⟩,
          ⟨SeqType.DNA, ['C'], []⟩], some [4, 9]⟩ :
            TabularMSA Nat).shape.2) ∧
     (∀ s ∈ (⟨[⟨SeqType.DNA, ['A'], []⟩, ⟨SeqType.DNA, ['C'], []⟩],
        some [4, 9]⟩ : TabularMSA Nat)._seqs,
       ∀ t ∈ (⟨[⟨SeqType.DNA, ['A'], []⟩, ⟨SeqType.DNA, ['C'], []⟩],
        some [4, 9]⟩ : TabularMSA Nat)._seqs, s.dtype = t.dtype) ∧
     ¬ ((⟨[⟨SeqType.DNA, ['A'], []⟩, ⟨SeqType.DNA, ['C'], []⟩],
        some [4, 9]⟩ : TabularMSA Nat)._seqs.length = 0 ∧
        0 < (⟨[⟨SeqType.DNA, ['A'], []⟩, ⟨SeqType.DNA, ['C'], []⟩],
          some [4, 9]⟩ : TabularMSA Nat).shape.2)) := by
  have hr : Reachable (⟨[⟨SeqType.DNA, ['A'], []⟩, ⟨SeqType.DNA, ['C'], []⟩],
      some [4, 9]⟩ : TabularMSA Nat) :=
    ⟨[⟨SeqType.DNA, ['A'], []⟩], none, some [4],
     [Op.append ⟨SeqType.DNA, ['C'], []⟩ none (some 7),
      Op.reindex none (some [4, 9])],
     ⟨[⟨SeqType.DNA, ['A'], []⟩], some [4]⟩, by decide, by decide⟩
  exact ⟨hr, reachable_invariants _ hr⟩

/-! ### C8: `to_dict` / `from_dict` round trip up to sorting -/

instance fstLtIsAntisymm {α : Type} [LinearOrder K] :
    IsAntisymm (K × α) (fun a b => a.1 < b.1) :=
  ⟨fun _ _ h1 h2 => absurd (lt_trans h1 h2) (lt_irrefl _)⟩

lemma insertionSort_asc_sorted_lt {α : Type} [LinearOrder K]
    {l : List (K × α)} (hnd : (l.map Prod.fst).Nodup) :
    List.Pairwise (fun a b : K × α => a.1 < b.1)
      (l.insertionSort (fun a b => a.1 ≤ b.1)) := by
  have hs : List.Pairwise (fun a b : K × α => a.1 ≤ b.1)
      (l.insertionSort (fun a b => a.1 ≤ b.1)) :=
    List.sorted_insertionSort _ l
  have hnd2 : ((l.insertionSort (fun a b : K × α => a.1 ≤ b.1)).map
      Prod.fst).Nodup := by
    have hpm := (List.perm_insertionSort
      (fun a b : K × α => a.1 ≤ b.1) l).map Prod.fst
    exact hpm.nodup_iff.mpr hnd
  have hne : List.Pairwise (fun a b : K × α => a.1 ≠ b.1)
      (l.insertionSort (fun a b => a.1 ≤ b.1)) :=
    (List.pairwise_map).mp hnd2
  exact (hs.and hne).imp (fun h => lt_of_le_of_ne h.1 h.2)

/-- A stable ascending sort of tuples with pairwise-distinct first
components is determined by the multiset of tuples: any two permuted
inputs sort to the same list. -/
lemma insertionSort_asc_eq_of_perm {α : Type} [LinearOrder K]
    {l1 l2 : List (K × α)} (hp : List.Perm l1 l2)
    (hnd : (l1.map Prod.fst).Nodup) :
    l1.insertionSort (fun a b => a.1 ≤ b.1) =
      l2.insertionSort (fun a b => a.1 ≤ b.1) := by
  have hnd2 : (l2.map Prod.fst).Nodup := ((hp.map Prod.fst).nodup_iff).mp hnd
  have hperm : List.Perm (l1.insertionSort (fun a b : K × α => a.1 ≤ b.1))
      (l2.insertionSort (fun a b : K × α => a.1 ≤ b.1)) :=
    ((List.perm_insertionSort _ l1).trans hp).trans
      (List.perm_insertionSort _ l2).symm
  exact List.eq_of_perm_of_sorted hperm
    (insertionSort_asc_sorted_lt hnd) (insertionSort_asc_sorted_lt hnd2)

lemma initLoop_ok_uniform [DecidableEq K] (d0 : SeqType) (L : Nat)
    (hIU : isIUPAC d0 = true) :
    ∀ (rows : List (Seq K)) (m : TabularMSA K),
      (∀ s ∈ rows, s.dtype = d0 ∧ s.chars.length = L) →
      (∀ s ∈ m._seqs, s.dtype = d0 ∧ s.chars.length = L) →
      initLoop m rows = OpResult.ok ⟨m._seqs ++ rows, m._keys⟩ := by
  intro rows
  induction rows with
  | nil =>
    intro m _ _
    unfold initLoop
    simp
  | cons s rest ih =>
    intro m hrows hm
    have hs := hrows s (List.mem_cons_self s rest)
    have hadd : _add_sequence m s none =
        OpResult.ok ⟨m._seqs ++ [s], m._keys⟩ := by
      cases hseqs : m._seqs with
      | nil =>
        unfold _add_sequence
        rw [if_pos (by rw [hseqs]; rfl)]
        rw [if_neg (by rw [hs.1, hIU]; simp)]
        simp [hseqs]
      | cons s0 rest0 =>
        have hs0 := hm s0 (hseqs ▸ List.mem_cons_self s0 rest0)
        unfold _add_sequence
        rw [if_neg (by rw [hseqs]; simp)]
        rw [if_neg (by
          rw [dtype_of_cons hseqs, hs.1, hs0.1]
          simp)]
        rw [if_neg (by
          rw [shape2_of_cons hseqs, hs.2, hs0.2]
          simp)]
        rw [hseqs]
    have hrec := ih ⟨m._seqs ++ [s], m._keys⟩
      (fun x hx => hrows x (List.mem_cons_of_mem s hx))
      (by
        intro x hx
        rcases List.mem_append.mp hx with hx | hx
        · exact hm x hx
        · rw [List.mem_singleton.mp hx]
          exact hs)
    unfold initLoop
    rw [hadd]
    show initLoop ⟨m._seqs ++ [s], m._keys⟩ rest =
      OpResult.ok ⟨m._seqs ++ s :: rest, m._keys⟩
    rw [hrec]
    simp

lemma from_dict_ok [DecidableEq K] (d0 : SeqType) (L : Nat)
    (hIU : isIUPAC d0 = true) (p : List (K × Seq K))
    (hrows : ∀ s ∈ p.map Prod.snd, s.dtype = d0 ∧ s.chars.length = L)
    (hnd : (p.map Prod.fst).Nodup) :
    from_dict p = OpResult.ok ⟨p.map Prod.snd, some (p.map Prod.fst)⟩ := by
  have h1 : initLoop (⟨[], none⟩ : TabularMSA K) (p.map Prod.snd) =
      OpResult.ok ⟨p.map Prod.snd, none⟩ := by
    have hloop := initLoop_ok_uniform d0 L hIU (p.map Prod.snd) ⟨[], none⟩
      hrows (by intro x hx; exact absurd hx (List.not_mem_nil x))
    simpa using hloop
  unfold from_dict init
  rw [h1]
  exact reindex_explicit_ok ⟨p.map Prod.snd, none⟩ (p.map Prod.fst)
    (by simp) hnd

lemma zip_self_eq_map {α : Type} :
    ∀ (ks : List K) (l : List α), ks.length = l.length →
      ks.zip (l.zip ks) = (ks.zip l).map (fun x => (x.1, (x.2, x.1))) := by
  intro ks
  induction ks with
  | nil =>
    intro l _
    rfl
  | cons k ks ih =>
    intro l h
    cases l with
    | nil => simp at h
    | cons a l =>
      simp only [List.zip_cons_cons, List.map_cons]
      refine congrArg (List.cons _) ?_
      exact ih l (by simpa using h)

lemma map_zip_self_eq_map {α : Type} :
    ∀ p : List (K × α),
      (p.map Prod.fst).zip ((p.map Prod.snd).zip (p.map Prod.fst)) =
        p.map (fun x => (x.1, (x.2, x.1))) := by
  intro p
  induction p with
  | nil => rfl
  | cons x p ih =>
    simp only [List.map_cons, List.zip_cons_cons]
    exact congrArg (List.cons _) ih

lemma sort_false_eq_insertionSort {α : Type} [LinearOrder K]
    (l : List (K × α)) :
    _sort_by_first_element false l =
      l.insertionSort (fun a b => a.1 ≤ b.1) := by
  unfold _sort_by_first_element
  simp

/-- C8: for a keyed, non-empty, invariant-satisfying MSA with
pairwise-distinct rows, `from_dict` applied to any permutation of
`to_dict`'s association list succeeds, and sorting both MSAs by their
existing keys yields one identical MSA. -/
theorem to_dict_from_dict_roundtrip [LinearOrder K] (m : TabularMSA K)
    (ks : List K) (d p : List (K × Seq K))
    (hm : Inv m) (hk : m._keys = some ks) (hne : m._seqs ≠ [])
    (hdistinct : m._seqs.Nodup)
    (hd : to_dict m = Except.ok d) (hp : List.Perm p d) :
    ∃ m2 msort, from_dict p = OpResult.ok m2 ∧
      sort m none false = OpResult.ok msort ∧
      sort m2 none false = OpResult.ok msort := by
  obtain ⟨hkl, hknd⟩ := inv_keys_part hm hk
  have hdval : to_dict m = Except.ok (ks.zip m._seqs) := by
    unfold to_dict keys
    simp [hk]
  rw [hdval] at hd
  cases hd
  obtain ⟨s0, rest, hseqs⟩ := List.exists_cons_of_ne_nil hne
  have hs0mem : s0 ∈ m._seqs := hseqs ▸ List.mem_cons_self s0 rest
  have hIU : isIUPAC s0.dtype = true := hm.2.1 s0 hs0mem
  have huniform : ∀ s ∈ m._seqs,
      s.dtype = s0.dtype ∧ s.chars.length = s0.chars.length :=
    fun s hs => hm.1 s hs s0 hs0mem
  have hdfst : (ks.zip m._seqs).map Prod.fst = ks :=
    List.map_fst_zip _ _ (le_of_eq hkl)
  have hdsnd : (ks.zip m._seqs).map Prod.snd = m._seqs :=
    List.map_snd_zip _ _ (le_of_eq hkl.symm)
  have hpfst : List.Perm (p.map Prod.fst) ks := by
    have := hp.map Prod.fst
    rw [hdfst] at this
    exact this
  have hpsnd : List.Perm (p.map Prod.snd) m._seqs := by
    have := hp.map Prod.snd
    rw [hdsnd] at this
    exact this
  have hpnd : (p.map Prod.fst).Nodup := hpfst.nodup_iff.mpr hknd
  have hprows : ∀ s ∈ p.map Prod.snd,
      s.dtype = s0.dtype ∧ s.chars.length = s0.chars.length :=
    fun s hs => huniform s (hpsnd.mem_iff.mp hs)
  have hfd := from_dict_ok s0.dtype s0.chars.length hIU p hprows hpnd
  -- the two zipped tuple lists and their shared sorted form
  have hz1 : ks.zip (m._seqs.zip ks) =
      (ks.zip m._seqs).map (fun x => (x.1, (x.2, x.1))) :=
    zip_self_eq_map ks m._seqs hkl
  have hz2 : (p.map Prod.fst).zip ((p.map Prod.snd).zip (p.map Prod.fst)) =
      p.map (fun x => (x.1, (x.2, x.1))) := map_zip_self_eq_map p
  have hembperm : List.Perm
      ((ks.zip m._seqs).map (fun x : K × Seq K => (x.1, (x.2, x.1))))
      (p.map (fun x : K × Seq K => (x.1, (x.2, x.1)))) :=
    (hp.map _).symm
  have hembnd : (((ks.zip m._seqs).map
      (fun x : K × Seq K => (x.1, (x.2, x.1)))).map Prod.fst).Nodup := by
    rw [List.map_map]
    have hcomp : ((ks.zip m._seqs).map
        (Prod.fst ∘ fun x : K × Seq K => (x.1, (x.2, x.1)))) =
        (ks.zip m._seqs).map Prod.fst := rfl
    rw [hcomp, hdfst]
    exact hknd
  have hsortedeq :
      ((ks.zip m._seqs).map (fun x : K × Seq K =>
        (x.1, (x.2, x.1)))).insertionSort (fun a b => a.1 ≤ b.1) =
      (p.map (fun x : K × Seq K =>
        (x.1, (x.2, x.1)))).insertionSort (fun a b => a.1 ≤ b.1) :=
    insertionSort_asc_eq_of_perm hembperm hembnd
  -- sort the original MSA
  have hplen : (p.map Prod.fst).length = (p.map Prod.snd).length := by simp
  have hp2len : (p.map Prod.snd).length = m._seqs.length := hpsnd.length_eq
  have hpne : p.map Prod.snd ≠ [] := by
    intro hnil
    apply hne
    have hlen0 := hp2len
    rw [hnil] at hlen0
    exact List.length_eq_zero.mp hlen0.symm
  have hsort1 := sort_keyed_ok m none false ks ks hk
    (sortKeysFor_none_of_keys hk) hkl hknd hkl hne
  have hsort2 := sort_keyed_ok ⟨p.map Prod.snd, some (p.map Prod.fst)⟩
    none false (p.map Prod.fst) (p.map Prod.fst) rfl
    (sortKeysFor_none_of_keys rfl) hplen hpnd hplen hpne
  refine ⟨⟨p.map Prod.snd, some (p.map Prod.fst)⟩, _, hfd, hsort1, ?_⟩
  rw [hsort2]
  have hAB : _sort_by_first_element false (ks.zip (m._seqs.zip ks)) =
      _sort_by_first_element false
        ((p.map Prod.fst).zip ((p.map Prod.snd).zip (p.map Prod.fst))) := by
    rw [sort_false_eq_insertionSort, sort_false_eq_insertionSort, hz1, hz2]
    exact hsortedeq
  rw [hAB]

/-- Row `DNA('A')` of the C8 witness, keyed `2`. -/
def c8seqA : Seq Nat := ⟨SeqType.DNA, ['A'], []⟩

/-- Row `DNA('C')` of the C8 witness, keyed `1`. -/
def c8seqC : Seq Nat := ⟨SeqType.DNA, ['C'], []⟩

/-- The keyed two-row MSA of the C8 witness. -/
def c8msa : TabularMSA Nat := ⟨[c8seqA, c8seqC], some [2, 1]⟩

/-- C8 witness: the round trip on a concrete keyed MSA, with the dict
list observed in reversed order. -/
theorem to_dict_from_dict_roundtrip_witness :
    (c8msa.Inv ∧ c8msa._keys = some [2, 1] ∧ c8msa._seqs ≠ [] ∧
      c8msa._seqs.Nodup ∧
      to_dict c8msa = Except.ok [(2, c8seqA), (1, c8seqC)] ∧
      List.Perm [(1, c8seqC), (2, c8seqA)] [(2, c8seqA), (1, c8seqC)]) ∧
    (∃ m2 msort, from_dict [(1, c8seqC), (2, c8seqA)] = OpResult.ok m2 ∧
      sort c8msa none false = OpResult.ok msort ∧
      sort m2 none false = OpResult.ok msort) :=
  ⟨⟨⟨by decide, by decide, by decide, by decide⟩, rfl, by decide, by decide,
      by decide, by decide⟩,
   to_dict_from_dict_roundtrip c8msa [2, 1] [(2, c8seqA), (1, c8seqC)]
     [(1, c8seqC), (2, c8seqA)]
     ⟨by decide, by decide, by decide, by decide⟩ rfl (by decide)
     (by decide) (by decide) (by decide)⟩

end TabularMSA

end Skbio
